import Mathlib

/-!
# MaxScale: the cache filter's `CacheSimple` and the `maxkeys` utility

A shallow embedding of

* `server/modules/filter/cache/cachesimple.cc` (with the declarations of `cache.hh`), and
* `server/core/maxkeys.cc`,

followed by theorems about the embedded functions.

Conventions of the embedding.

* A C++ member function that changes the object returns the changed part next to its result.
* `std::unordered_map<CACHE_KEY, const CacheFilterSession*>` (the member `m_pending`) is an
  association list.  The container keeps keys unique; in the embedding that is the predicate
  `Pending.WF`, which is proved for every registry the two operations can build.
* What the code receives from outside (whether an allocation succeeds, what the storage
  backend answers, what `access` reports) is a parameter.
-/

namespace CacheSimple

section Registry

variable {κ σ : Type} [DecidableEq κ] [DecidableEq σ]

/-- The type `Pending` of the member `m_pending`: pairs of a cache key and the session that
is refreshing it. `κ` stands for `CACHE_KEY`, `σ` for `const CacheFilterSession*`. -/
abbrev Pending (κ σ : Type) := List (κ × σ)

namespace Pending

/-- The call `m_pending.find(key)`: the session stored under `key`, and `none` for
`m_pending.end()`. -/
def find : Pending κ σ → κ → Option σ
  | [], _ => none
  | (k, s) :: rest, key => if k = key then some s else find rest key

/-- The call `m_pending.erase(i)` for the iterator `i` that `find(key)` returned, when it
is not `end()`: the entry that `find` reached is removed, nothing else. -/
def erase : Pending κ σ → κ → Pending κ σ
  | [], _ => []
  | (k, s) :: rest, key => if k = key then rest else (k, s) :: erase rest key

/-- The call `m_pending.insert(std::make_pair(key, pSession))`. With `alloc_ok = false` the
allocation of the node fails: `insert` throws (`none`) and the map is as it was. A key that
is present is not overwritten. -/
def insert (alloc_ok : Bool) (m : Pending κ σ) (key : κ) (pSession : σ) :
    Option (Pending κ σ) :=
  if alloc_ok then
    match find m key with
    | some _ => some m
    | none => some ((key, pSession) :: m)
  else none

/-- The number of entries stored under `key`. -/
def entries (m : Pending κ σ) (key : κ) : Nat :=
  (m.filter (fun e => decide (e.1 = key))).length

/-- The container invariant of `std::unordered_map`: no key occurs twice. -/
def WF (m : Pending κ σ) : Prop := (m.map Prod.fst).Nodup

instance (m : Pending κ σ) : Decidable (WF m) := by
  unfold WF; infer_instance

end Pending

/-- `CacheSimple::do_must_refresh`: the returned `rv` and `m_pending` after the call.
`alloc_ok` says whether the insertion can allocate; when it cannot, `insert` throws and the
`catch` sets `rv = false`. -/
def do_must_refresh (alloc_ok : Bool) (m : Pending κ σ) (key : κ) (pSession : σ) :
    Bool × Pending κ σ :=
  match Pending.find m key with
  | none =>
    match Pending.insert alloc_ok m key pSession with
    | some m' => (true, m')
    | none => (false, m)
  | some _ => (false, m)

/-- How a call of `CacheSimple::do_refreshed` ends. -/
inductive Refreshed (κ σ : Type) where
  /-- The call returned; `m_pending` is as given. -/
  | returned (m : Pending κ σ)
  /-- The first assertion, `i != m_pending.end()`, failed: the process is aborted. -/
  | assert_found_failed
  /-- The second assertion, `i->second == pSession`, failed: the process is aborted. -/
  | assert_owner_failed
  /-- The call reached `m_pending.erase(m_pending.end())`, which C++ leaves undefined. -/
  | undefined_erase
  deriving DecidableEq, Repr

/-- `CacheSimple::do_refreshed`.

Modelled from the spec: `mxb_assert` (its header, `maxbase/assert.h`, is not among the
sources) is "asserted in debug builds" and compiled out in release builds; `debug` says
which build this is. A failed assertion ends the call, and `m_pending` is not touched. -/
def do_refreshed (debug : Bool) (m : Pending κ σ) (key : κ) (pSession : σ) :
    Refreshed κ σ :=
  match Pending.find m key with
  | none =>
    if debug then Refreshed.assert_found_failed else Refreshed.undefined_erase
  | some owner =>
    if debug && decide (owner ≠ pSession) then Refreshed.assert_owner_failed
    else Refreshed.returned (Pending.erase m key)

/-- A call on the pending registry, as a session makes it through `Cache::must_refresh` or
`Cache::refreshed`. -/
inductive Call (κ σ : Type) where
  | must_refresh (alloc_ok : Bool) (key : κ) (pSession : σ)
  | refreshed (key : κ) (pSession : σ)
  deriving DecidableEq, Repr

/-- One call applied to the registry. A `refreshed` that is not made by the owner of its key
(an assertion of `do_refreshed` fails) has no successor state. -/
def step (m : Pending κ σ) : Call κ σ → Option (Pending κ σ)
  | Call.must_refresh alloc_ok key pSession => some (do_must_refresh alloc_ok m key pSession).2
  | Call.refreshed key pSession =>
    match do_refreshed true m key pSession with
    | Refreshed.returned m' => some m'
    | _ => none

/-- A sequence of calls applied from left to right. -/
def run (m : Pending κ σ) : List (Call κ σ) → Option (Pending κ σ)
  | [] => some m
  | c :: cs =>
    match step m c with
    | some m' => run m' cs
    | none => none

/-- The key that the call is about. -/
def Call.key : Call κ σ → κ
  | Call.must_refresh _ k _ => k
  | Call.refreshed k _ => k

/-- Whether the call is a `refreshed` for `key`. -/
def Call.releases (key : κ) : Call κ σ → Bool
  | Call.must_refresh _ _ _ => false
  | Call.refreshed k _ => decide (k = key)

end Registry

section Instance

variable {κ σ V J S B C R F : Type}

/-- The type `cache_result_t` (a `uint32_t`). -/
abbrev cache_result_t := Nat

/-- Modelled from the spec: the interface `Storage` (`storage.hh` is not among the sources),
the backend behind `m_pStorage`, with `get_value(key, flags, soft_ttl, hard_ttl, ppValue)`,
`put_value(key, pValue)`, `del_value(key)` and `get_info(what, ppInfo)`. `S` is the state of
the backend, `V` a `GWBUF`, `J` a `json_t`; an out-parameter is passed in and handed back. -/
structure Storage (κ V J S : Type) where
  get_value : S → κ → Nat → Nat → Nat → Option V → cache_result_t × Option V × S
  put_value : S → κ → Option V → cache_result_t × S
  del_value : S → κ → cache_result_t × S
  INFO_ALL : Nat
  get_info : S → Nat → cache_result_t × J

/-- The data members of a `CacheSimple` object: those of the base class `Cache` (`B`), the
owned storage `m_pStorage` and the pending registry `m_pending`. -/
structure Instance (κ σ S B : Type) where
  cache : B
  m_pStorage : S
  m_pending : Pending κ σ

/-- `CacheSimple::get_value`: the result, `*ppValue` and the object after the call. -/
def get_value (st : Storage κ V J S) (c : Instance κ σ S B) (key : κ)
    (flags soft_ttl hard_ttl : Nat) (ppValue : Option V) :
    cache_result_t × Option V × Instance κ σ S B :=
  let r := st.get_value c.m_pStorage key flags soft_ttl hard_ttl ppValue
  (r.1, r.2.1, { c with m_pStorage := r.2.2 })

/-- `CacheSimple::put_value`: the result and the object after the call. -/
def put_value (st : Storage κ V J S) (c : Instance κ σ S B) (key : κ) (pValue : Option V) :
    cache_result_t × Instance κ σ S B :=
  let r := st.put_value c.m_pStorage key pValue
  (r.1, { c with m_pStorage := r.2 })

/-- `CacheSimple::del_value`: the result and the object after the call. -/
def del_value (st : Storage κ V J S) (c : Instance κ σ S B) (key : κ) :
    cache_result_t × Instance κ σ S B :=
  let r := st.del_value c.m_pStorage key
  (r.1, { c with m_pStorage := r.2 })

/-- `CacheSimple::Create`: the returned value, `*pRules` and `*ppFactory` after the call.
`Cache_Create` is `Cache::Create` (declared in `cache.hh`, defined outside the sources): it
is given the configuration and the two locals and hands back its result and the locals. The
local `rv` is an `int`. -/
def Create (Cache_Create : C → List R → Option F → Bool × List R × Option F)
    (config : C) (pRules : List R) (ppFactory : Option F) : Bool × List R × Option F :=
  let rules : List R := []
  let pFactory : Option F := none
  let r := Cache_Create config rules pFactory
  let rv : Int := if r.1 then 1 else 0
  if rv ≠ 0 then (decide (rv ≠ 0), r.2.1, r.2.2)
  else (decide (rv ≠ 0), pRules, ppFactory)

/-- The enumerator `Cache::INFO_RULES`. -/
def INFO_RULES : Nat := 0x01
/-- The enumerator `Cache::INFO_PENDING`. -/
def INFO_PENDING : Nat := 0x02
/-- The enumerator `Cache::INFO_STORAGE`. -/
def INFO_STORAGE : Nat := 0x04
/-- The enumerator `Cache::INFO_ALL`. -/
def INFO_ALL : Nat := INFO_RULES ||| INFO_PENDING ||| INFO_STORAGE

/-- The members of a JSON object, in order. -/
abbrev Report (J : Type) := List (String × J)

/-- The call `json_object_set_new(pInfo, key, value)` of the JSON library: the member `key`
gets `value`, replacing the value of a member of that name or else as a new last member. -/
def json_object_set_new : Report J → String → J → Report J
  | [], key, value => [(key, value)]
  | (k, v) :: rest, key, value =>
    if k = key then (k, value) :: rest else (k, v) :: json_object_set_new rest key value

/-- `CacheSimple::do_get_info`. `Cache_do_get_info` is the base class's `Cache::do_get_info`
and `CACHE_RESULT_IS_OK` the macro of that name (both defined outside the sources). The
branch of `INFO_PENDING` has no statement. -/
def do_get_info (Cache_do_get_info : B → Nat → Report J)
    (CACHE_RESULT_IS_OK : cache_result_t → Bool)
    (st : Storage κ V J S) (c : Instance κ σ S B) (what : Nat) : Report J :=
  let pInfo := Cache_do_get_info c.cache what
  let pInfo := if what &&& INFO_PENDING ≠ 0 then pInfo else pInfo
  if what &&& INFO_STORAGE ≠ 0 then
    let r := st.get_info c.m_pStorage st.INFO_ALL
    if CACHE_RESULT_IS_OK r.1 then json_object_set_new pInfo "storage" r.2
    else pInfo
  else pInfo

end Instance

end CacheSimple

namespace Maxkeys

/-- The value of `EXIT_SUCCESS`. -/
def EXIT_SUCCESS : Int := 0
/-- The value of `EXIT_FAILURE`. -/
def EXIT_FAILURE : Int := 1
/-- The value of `ENOENT`. -/
def ENOENT : Int := 2

/-- The struct `EncryptionKeys` of `internal/secrets.hh`: the key and the init vector. -/
structure EncryptionKeys where
  enckey : List Nat
  initvector : List Nat
  deriving DecidableEq, Repr

/-- What a run of `maxkeys` does that can be seen from outside, in order. -/
inductive Action where
  | print_usage
  | access (path : String)
  | printf (what : String)
  | gen_random_key
  | write_keys (filepath owner : String)
  | open_file (path : String)
  | file_write (bytes : List Nat)
  | chmod (path : String)
  | getpwnam (name : String)
  | chown (path : String) (uid gid : Nat)
  deriving DecidableEq, Repr

/-- What the program receives from the system it runs on. -/
structure Env where
  /-- The result of `mxs::datadir()`. -/
  datadir : String
  /-- The macro `SECRETS_FILENAME`. -/
  SECRETS_FILENAME : String
  /-- The call `access(path, F_OK)`: its return value and `errno` after it (0 before). -/
  access : String → Int × Int
  /-- Whether the `std::ofstream` on the path is open. -/
  is_open : String → Bool
  /-- The value of `file.good()` after the two writes. -/
  good : Bool
  /-- The return value of `chmod(path, S_IRUSR)`. -/
  chmod : String → Int
  /-- The call `getpwnam(owner)`: `pw_uid` and `pw_gid`, or `none` for a null pointer. -/
  getpwnam : String → Option (Nat × Nat)
  /-- The return value of `chown(path, uid, gid)`. -/
  chown : String → Nat → Nat → Int

/-- The function `write_keys`: its return value and what it did. -/
def write_keys (env : Env) (key : EncryptionKeys) (filepath owner : String) :
    Bool × List Action :=
  let opened :=
    if env.is_open filepath then
      if env.good then
        (true, [Action.open_file filepath, Action.file_write key.enckey,
                Action.file_write key.initvector, Action.printf "written"])
      else
        (false, [Action.open_file filepath, Action.file_write key.enckey,
                 Action.file_write key.initvector, Action.printf "write failed"])
    else (false, [Action.open_file filepath, Action.printf "could not open"])
  let write_ok := opened.1
  if write_ok then
    if env.chmod filepath = 0 then
      match env.getpwnam owner with
      | some (uid, gid) =>
        if env.chown filepath uid gid = 0 then
          (true, opened.2 ++ [Action.chmod filepath, Action.printf "permissions set",
            Action.getpwnam owner, Action.chown filepath uid gid,
            Action.printf "ownership given"])
        else
          (false, opened.2 ++ [Action.chmod filepath, Action.printf "permissions set",
            Action.getpwnam owner, Action.chown filepath uid gid,
            Action.printf "chown failed"])
      | none =>
        (false, opened.2 ++ [Action.chmod filepath, Action.printf "permissions set",
          Action.getpwnam owner, Action.printf "user not found"])
    else (false, opened.2 ++ [Action.chmod filepath, Action.printf "chmod failed"])
  else (false, opened.2)

/-- The option loop of `main`. `opts` are the values `getopt_long` returns before it returns
-1, each with the `optarg` it sets. The result is the exit of `main` from inside the loop
(`Sum.inl`), or `username` after the loop (`Sum.inr`). -/
def parse_options : List (Int × String) → String → (Int × List Action) ⊕ String
  | [], username => Sum.inr username
  | (c, optarg) :: rest, _ =>
    if c = 104 then Sum.inl (EXIT_SUCCESS, [Action.print_usage])  -- case 'h'
    else if c = 117 then parse_options rest optarg  -- case 'u'
    else Sum.inl (EXIT_FAILURE, [Action.print_usage])

/-- The local `filepath` of `main`: the directory, which is `argv[optind]` when
`optind < argc` (`arg`) and the default directory otherwise, then `/` and the file name. -/
def secrets_filepath (env : Env) (arg : Option String) : String :=
  let filepath : String := match arg with
    | some a => a
    | none => env.datadir
  (filepath ++ "/") ++ env.SECRETS_FILENAME

/-- The part of `main` after the option loop. `arg` is `argv[optind]` when `optind < argc`,
`new_key` the key that `gen_random_key` returns. -/
def main_generate (env : Env) (new_key : EncryptionKeys) (username : String)
    (arg : Option String) : Int × List Action :=
  let filepath := secrets_filepath env arg
  let r := env.access filepath
  if r.1 = 0 then
    (EXIT_FAILURE, [Action.access filepath, Action.printf "already exists"])
  else if r.2 ≠ ENOENT then
    (EXIT_FAILURE, [Action.access filepath, Action.printf "stat failed"])
  else
    let w := write_keys env new_key filepath username
    let rval := if w.1 then EXIT_SUCCESS else EXIT_FAILURE
    (rval, [Action.access filepath, Action.gen_random_key,
            Action.write_keys filepath username] ++ w.2)

/-- The constant `default_user`. -/
def default_user : String := "maxscale"

/-- The function `main`: the exit status and what the run did. -/
def main (env : Env) (new_key : EncryptionKeys) (opts : List (Int × String))
    (arg : Option String) : Int × List Action :=
  match parse_options opts default_user with
  | Sum.inl r => r
  | Sum.inr username => main_generate env new_key username arg

/-- A system for the examples: the data directory is `/var/lib/maxscale`, the file
`/tmp/.secrets` exists and no other file does; every other call succeeds. -/
def example_env : Env where
  datadir := "/var/lib/maxscale"
  SECRETS_FILENAME := ".secrets"
  access := fun path => if path = "/tmp/.secrets" then (0, 0) else (-1, ENOENT)
  is_open := fun _ => true
  good := true
  chmod := fun _ => 0
  getpwnam := fun _ => some (998, 998)
  chown := fun _ _ _ => 0

/-- A key for the examples. -/
def example_key : EncryptionKeys := ⟨[1, 2, 3], [4, 5]⟩

/-- Whether the action creates or changes a file, or is the call of one of the two functions
that produce and write the key. -/
def Action.generates : Action → Bool
  | Action.gen_random_key => true
  | Action.write_keys _ _ => true
  | Action.open_file _ => true
  | Action.file_write _ => true
  | Action.chmod _ => true
  | Action.chown _ _ _ => true
  | _ => false

/-- How a run of `gen_random_key` can fail to return: the loop is given too few iterations,
or a `memcpy` leaves the array it copies to or from. -/
inductive Fault where
  | out_of_fuel
  | out_of_bounds
  deriving DecidableEq, Repr

/-- The bytes of the 64-bit `rand_number` in memory, lowest address first, with the least
significant byte first. There are `sizeof(rand_number)` = 8 of them. -/
def object_bytes (rand_number : Nat) : List Nat :=
  (List.range 8).map (fun j => rand_number / 256 ^ j % 256)

/-- The call `memcpy(dest + offset, src, n)` on an array `dest`: `n` bytes from the start of
`src` replace those of `dest` from `offset` on. A copy that would leave `dest` or `src` is
`out_of_bounds`. -/
def memcpy (dest : List Nat) (offset : Int) (src : List Nat) (n : Int) :
    Except Fault (List Nat) :=
  if 0 ≤ offset ∧ 0 ≤ n ∧ offset + n ≤ dest.length ∧ n ≤ src.length then
    Except.ok (dest.take offset.toNat ++ src.take n.toNat ++
      dest.drop (offset.toNat + n.toNat))
  else Except.error Fault.out_of_bounds

/-- The bytes that `memcpy(dest, src + offset, n)` copies out of the array `src`. -/
def mem_read (src : List Nat) (offset : Int) (n : Int) : Except Fault (List Nat) :=
  if 0 ≤ offset ∧ 0 ≤ n ∧ offset + n ≤ src.length then
    Except.ok ((src.drop offset.toNat).take n.toNat)
  else Except.error Fault.out_of_bounds

/-- The variables of the fallback loop of `gen_random_key`, and a record of what it did:
`calls` counts the calls of `engine()`, `copies` lists offset and length of each `memcpy`. -/
structure Fill where
  rand_buffer : List Nat
  bytes_written : Int
  calls : Nat
  copies : List (Int × Int)
  deriving DecidableEq, Repr

/-- The loop `while (bytes_written < buflen)` of `gen_random_key`, run for at most `fuel`
iterations. `engine i` is the number that call `i` of `engine()` returns. -/
def fill_loop (engine : Nat → Nat) (buflen : Int) : Nat → Fill → Except Fault Fill
  | 0, st => if st.bytes_written < buflen then Except.error Fault.out_of_fuel else Except.ok st
  | fuel + 1, st =>
    if st.bytes_written < buflen then
      let rand_number := engine st.calls
      let new_bytes : Int := 8
      let bytes_to_write := min new_bytes (buflen - st.bytes_written)
      match memcpy st.rand_buffer st.bytes_written (object_bytes rand_number)
          bytes_to_write with
      | Except.ok buffer =>
        fill_loop engine buflen fuel
          { rand_buffer := buffer
            bytes_written := st.bytes_written + bytes_to_write
            calls := st.calls + 1
            copies := st.copies ++ [(st.bytes_written, bytes_to_write)] }
      | Except.error e => Except.error e
    else Except.ok st

/-- The function `gen_random_key`. `key_len`, `iv_len` and `buflen` are
`EncryptionKeys::key_len`, `iv_len` and `total_len` (declared outside the sources);
`RAND_bytes_rv` is what `RAND_bytes` returns and `rand_buffer` the array after that call. -/
def gen_random_key (key_len iv_len buflen : Int) (RAND_bytes_rv : Int) (engine : Nat → Nat)
    (fuel : Nat) (rand_buffer : List Nat) : Except Fault EncryptionKeys :=
  let filled : Except Fault (List Nat) :=
    if RAND_bytes_rv < 1 then
      match fill_loop engine buflen fuel ⟨rand_buffer, 0, 0, []⟩ with
      | Except.ok st => Except.ok st.rand_buffer
      | Except.error e => Except.error e
    else Except.ok rand_buffer
  match filled with
  | Except.ok buffer =>
    match mem_read buffer 0 key_len, mem_read buffer key_len iv_len with
    | Except.ok enckey, Except.ok initvector => Except.ok ⟨enckey, initvector⟩
    | _, _ => Except.error Fault.out_of_bounds
  | Except.error e => Except.error e

/-- Offset and length of copy number `j` of a fill of `buflen` bytes in pieces of 8: the
offset is `8 * j`, the length 8 or what is left of the array. -/
def piece (buflen : Int) (j : Nat) : Int × Int :=
  (8 * (j : Int), min 8 (buflen - 8 * (j : Int)))

/-- The number of pieces of 8 bytes that cover `buflen` bytes. -/
def pieces (buflen : Int) : Nat := ((buflen + 7) / 8).toNat

/-- Byte `i` of the array after the fill: byte `i % 8` of the number of call `i / 8`. -/
def filled_byte (engine : Nat → Nat) (i : Nat) : Nat :=
  (object_bytes (engine (i / 8))).getD (i % 8) 0

/-- Whether the copy `c` (offset and length) writes the byte at index `i`. -/
def covers (i : Int) (c : Int × Int) : Bool :=
  decide (c.1 ≤ i ∧ i < c.1 + c.2)

end Maxkeys

/-! ## The pending registry -/

namespace CacheSimple

section RegistryLemmas

variable {κ σ : Type} [DecidableEq κ]

namespace Pending

theorem find_eq_none_iff (m : Pending κ σ) (key : κ) :
    find m key = none ↔ key ∉ m.map Prod.fst := by
  induction m with
  | nil => simp [find]
  | cons e rest ih =>
    obtain ⟨k, s⟩ := e
    by_cases h : k = key
    · simp [find, h]
    · have h' : ¬ key = k := fun hk => h hk.symm
      simp [find, h, h', ih]

theorem entries_eq_count (m : Pending κ σ) (key : κ) :
    entries m key = (m.map Prod.fst).count key := by
  induction m with
  | nil => simp [entries]
  | cons e rest ih =>
    obtain ⟨k, s⟩ := e
    unfold entries at ih ⊢
    by_cases h : k = key
    · simp [List.filter_cons, h, ih]
    · simp [List.filter_cons, h, ih, List.count_cons]

theorem find_erase_ne (m : Pending κ σ) {key k : κ} (h : k ≠ key) :
    find (erase m key) k = find m k := by
  induction m with
  | nil => simp [erase]
  | cons e rest ih =>
    obtain ⟨k0, s⟩ := e
    by_cases h0 : k0 = key
    · have : ¬ k0 = k := fun hk => h (hk.symm.trans h0)
      simp only [erase, find, if_pos h0, if_neg this]
    · by_cases h1 : k0 = k
      · simp only [erase, find, if_neg h0, if_pos h1]
      · simp only [erase, find, if_neg h0, if_neg h1, ih]

theorem erase_sublist (m : Pending κ σ) (key : κ) : (erase m key).Sublist m := by
  induction m with
  | nil => simp [erase]
  | cons e rest ih =>
    obtain ⟨k0, s⟩ := e
    by_cases h0 : k0 = key
    · simp [erase, h0]
    · simp [erase, h0, ih]

theorem WF_erase {m : Pending κ σ} (h : WF m) (key : κ) : WF (erase m key) :=
  List.Nodup.sublist ((erase_sublist m key).map Prod.fst) h

theorem find_erase_self {m : Pending κ σ} (h : WF m) (key : κ) :
    find (erase m key) key = none := by
  induction m with
  | nil => simp [erase, find]
  | cons e rest ih =>
    obtain ⟨k0, s⟩ := e
    have hcons : k0 ∉ rest.map Prod.fst ∧ WF rest := by
      simpa [WF] using h
    by_cases h0 : k0 = key
    · subst h0
      simp only [erase, if_true]
      exact (find_eq_none_iff rest k0).2 hcons.1
    · simp [erase, find, h0, ih hcons.2]

theorem erase_eq_filter {m : Pending κ σ} (h : WF m) (key : κ) :
    erase m key = m.filter (fun e => decide (e.1 ≠ key)) := by
  induction m with
  | nil => simp [erase]
  | cons e rest ih =>
    obtain ⟨k0, s⟩ := e
    have hcons : k0 ∉ rest.map Prod.fst ∧ WF rest := by
      simpa [WF] using h
    by_cases h0 : k0 = key
    · subst h0
      simp only [erase, if_true]
      rw [List.filter_cons]
      simp only [ne_eq, not_true_eq_false, decide_False, Bool.false_eq_true, if_false]
      symm
      rw [List.filter_eq_self]
      intro e he
      have : e.1 ∈ rest.map Prod.fst := List.mem_map_of_mem Prod.fst he
      simp only [ne_eq, decide_eq_true_eq]
      intro hk; exact hcons.1 (hk ▸ this)
    · simp [erase, List.filter_cons, h0, ih hcons.2]

end Pending

theorem do_must_refresh_eq [DecidableEq σ] (alloc_ok : Bool) (m : Pending κ σ) (key : κ)
    (pSession : σ) :
    do_must_refresh alloc_ok m key pSession =
      if Pending.find m key = none ∧ alloc_ok = true then (true, (key, pSession) :: m)
      else (false, m) := by
  unfold do_must_refresh Pending.insert
  cases hf : Pending.find m key with
  | none => cases alloc_ok <;> simp
  | some o => simp

theorem WF_do_must_refresh [DecidableEq σ] {m : Pending κ σ} (h : Pending.WF m)
    (alloc_ok : Bool) (key : κ) (pSession : σ) :
    Pending.WF (do_must_refresh alloc_ok m key pSession).2 := by
  rw [do_must_refresh_eq]
  split
  · rename_i hc
    have := (Pending.find_eq_none_iff m key).1 hc.1
    simp only [Pending.WF, List.map_cons, List.nodup_cons]
    exact ⟨this, h⟩
  · exact h

theorem find_do_must_refresh [DecidableEq σ] (alloc_ok : Bool) (m : Pending κ σ) (key : κ)
    (pSession : σ) (k : κ) :
    Pending.find (do_must_refresh alloc_ok m key pSession).2 k =
      if Pending.find m key = none ∧ alloc_ok = true ∧ k = key then some pSession
      else Pending.find m k := by
  rw [do_must_refresh_eq]
  by_cases hc : Pending.find m key = none ∧ alloc_ok = true
  · by_cases hk : k = key
    · subst hk; simp [hc, Pending.find]
    · have hk' : ¬ key = k := fun h => hk h.symm
      simp [hc, hk, hk', Pending.find]
  · rw [if_neg hc]
    have : ¬ (Pending.find m key = none ∧ alloc_ok = true ∧ k = key) :=
      fun h => hc ⟨h.1, h.2.1⟩
    rw [if_neg this]

theorem WF_step [DecidableEq σ] {m m' : Pending κ σ} (h : Pending.WF m) (c : Call κ σ)
    (hs : step m c = some m') : Pending.WF m' := by
  cases c with
  | must_refresh a key s =>
    simp only [step, Option.some.injEq] at hs
    subst hs
    exact WF_do_must_refresh h a key s
  | refreshed key s =>
    simp only [step, do_refreshed] at hs
    cases hf : Pending.find m key with
    | none => simp [hf] at hs
    | some o =>
      by_cases ho : o = s
      · simp [hf, ho] at hs
        subst hs
        exact Pending.WF_erase h key
      · simp [hf, ho] at hs

theorem WF_run [DecidableEq σ] (cs : List (Call κ σ)) {m m' : Pending κ σ}
    (h : Pending.WF m) (hr : run m cs = some m') : Pending.WF m' := by
  induction cs generalizing m with
  | nil =>
    simp only [run, Option.some.injEq] at hr
    subst hr; exact h
  | cons c cs ih =>
    simp only [run] at hr
    cases hs : step m c with
    | none => simp [hs] at hr
    | some m1 =>
      simp only [hs] at hr
      exact ih (WF_step h c hs) hr

theorem find_step_keep [DecidableEq σ] {m m' : Pending κ σ} {k : κ} {s : σ}
    (c : Call κ σ)
    (hf : Pending.find m k = some s) (hc : Call.releases k c = false)
    (hs : step m c = some m') : Pending.find m' k = some s := by
  cases c with
  | must_refresh a key t =>
    simp only [step, Option.some.injEq] at hs
    subst hs
    rw [find_do_must_refresh]
    split
    · rename_i h
      obtain ⟨h1, _, h3⟩ := h
      subst h3
      rw [hf] at h1
      cases h1
    · exact hf
  | refreshed key t =>
    have hk : key ≠ k := by simpa [Call.releases] using hc
    simp only [step, do_refreshed] at hs
    cases hfk : Pending.find m key with
    | none => simp [hfk] at hs
    | some o =>
      by_cases ho : o = t
      · simp [hfk, ho] at hs
        subst hs
        rw [Pending.find_erase_ne m (Ne.symm hk)]
        exact hf
      · simp [hfk, ho] at hs

theorem find_run_keep [DecidableEq σ] (cs : List (Call κ σ)) {m m' : Pending κ σ}
    {k : κ} {s : σ}
    (hf : Pending.find m k = some s) (hc : ∀ c ∈ cs, Call.releases k c = false)
    (hr : run m cs = some m') : Pending.find m' k = some s := by
  induction cs generalizing m with
  | nil =>
    simp only [run, Option.some.injEq] at hr
    subst hr; exact hf
  | cons c cs ih =>
    simp only [run] at hr
    cases hs : step m c with
    | none => simp [hs] at hr
    | some m1 =>
      simp only [hs] at hr
      exact ih (find_step_keep c hf (hc c (List.mem_cons_self _ _)) hs)
        (fun c' hc' => hc c' (List.mem_cons_of_mem _ hc')) hr

theorem entries_eq_zero_iff (m : Pending κ σ) (key : κ) :
    Pending.entries m key = 0 ↔ Pending.find m key = none := by
  rw [Pending.entries_eq_count, Pending.find_eq_none_iff, List.count_eq_zero]

theorem entries_erase_self (m : Pending κ σ) (key : κ) :
    Pending.entries (Pending.erase m key) key = Pending.entries m key - 1 := by
  induction m with
  | nil => simp [Pending.erase, Pending.entries]
  | cons e rest ih =>
    obtain ⟨k0, s⟩ := e
    unfold Pending.entries at ih ⊢
    by_cases h0 : k0 = key
    · simp [Pending.erase, List.filter_cons, h0]
    · simp [Pending.erase, List.filter_cons, h0, ih]

theorem find_erase_self_of_le_one {m : Pending κ σ} {key : κ}
    (h : Pending.entries m key ≤ 1) : Pending.find (Pending.erase m key) key = none := by
  rw [← entries_eq_zero_iff, entries_erase_self]
  omega

theorem entries_step_other [DecidableEq σ] {m m' : Pending κ σ} {k : κ}
    (c : Call κ σ)
    (hc : Call.key c ≠ k) (hs : step m c = some m') :
    Pending.entries m' k = Pending.entries m k := by
  cases c with
  | must_refresh a key t =>
    have hk : ¬ key = k := by simpa [Call.key] using hc
    simp only [step, Option.some.injEq] at hs
    subst hs
    rw [do_must_refresh_eq]
    split
    · simp [Pending.entries, List.filter_cons, hk]
    · rfl
  | refreshed key t =>
    have hk : ¬ key = k := by simpa [Call.key] using hc
    simp only [step, do_refreshed] at hs
    cases hfk : Pending.find m key with
    | none => simp [hfk] at hs
    | some o =>
      by_cases ho : o = t
      · simp [hfk, ho] at hs
        subst hs
        clear hfk
        induction m with
        | nil => simp [Pending.erase]
        | cons e rest ih =>
          obtain ⟨k0, s0⟩ := e
          unfold Pending.entries at ih ⊢
          by_cases h0 : k0 = key
          · have : ¬ k0 = k := fun h => hk (h0.symm.trans h)
            simp [Pending.erase, List.filter_cons, h0, hk]
          · by_cases h1 : k0 = k
            · subst h1
              simp [Pending.erase, List.filter_cons, h0, ih]
            · simp [Pending.erase, List.filter_cons, h0, h1, ih]
      · simp [hfk, ho] at hs

theorem entries_run_other [DecidableEq σ] (cs : List (Call κ σ)) {m m' : Pending κ σ}
    {k : κ}
    (hc : ∀ c ∈ cs, Call.key c ≠ k) (hr : run m cs = some m') :
    Pending.entries m' k = Pending.entries m k := by
  induction cs generalizing m with
  | nil =>
    simp only [run, Option.some.injEq] at hr
    subst hr; rfl
  | cons c cs ih =>
    simp only [run] at hr
    cases hs : step m c with
    | none => simp [hs] at hr
    | some m1 =>
      simp only [hs] at hr
      rw [ih (fun c' hc' => hc c' (List.mem_cons_of_mem _ hc')) hr]
      exact entries_step_other c (hc c (List.mem_cons_self _ _)) hs

end RegistryLemmas

section RegistryClaims

variable {κ σ : Type} [DecidableEq κ] [DecidableEq σ]

/-- C1. `do_must_refresh(key, requester)` returns true exactly when `key` had no entry
before the call and the insertion succeeded; the registry is then the old one plus the one
entry `key -> requester`. In every other case (an entry for `key` exists, or the insertion
failed) it returns false and the registry is the old one; looked up key by key, only `key`
can change, and only from absent to `requester`, so an owner stays the owner. -/
theorem do_must_refresh_spec (alloc_ok : Bool) (m : Pending κ σ) (key : κ) (pSession : σ) :
    (do_must_refresh alloc_ok m key pSession =
      if Pending.find m key = none ∧ alloc_ok = true then (true, (key, pSession) :: m)
      else (false, m)) ∧
    ((do_must_refresh alloc_ok m key pSession).1 = true ↔
      (Pending.find m key = none ∧ alloc_ok = true)) ∧
    (∀ k, Pending.find (do_must_refresh alloc_ok m key pSession).2 k =
      if Pending.find m key = none ∧ alloc_ok = true ∧ k = key then some pSession
      else Pending.find m k) ∧
    (∀ owner, Pending.find m key = some owner →
      Pending.find (do_must_refresh alloc_ok m key pSession).2 key = some owner) := by
  refine ⟨do_must_refresh_eq alloc_ok m key pSession, ?_,
    find_do_must_refresh alloc_ok m key pSession, ?_⟩
  · rw [do_must_refresh_eq]
    by_cases hc : Pending.find m key = none ∧ alloc_ok = true
    · simp [hc]
    · simp [hc]
  · intro owner ho
    rw [find_do_must_refresh, ho]
    simp [ho]

/-- C2. In every registry that a sequence of `do_must_refresh` and `do_refreshed` calls
builds from the empty one (each `do_refreshed` by the owner of its key, so that its
assertions hold), no key has more than one entry; and once `do_must_refresh(k, s)` has
returned true, then as long as no `do_refreshed` for `k` is made, `k` stays owned by `s` and
every `do_must_refresh(k, t)` returns false, whatever `t` and whether or not it could
allocate. -/
theorem single_owner_invariant (cs : List (Call κ σ)) (m : Pending κ σ)
    (hreach : run [] cs = some m) :
    (∀ k, Pending.entries m k ≤ 1) ∧
    ∀ (a : Bool) (k : κ) (s : σ), (do_must_refresh a m k s).1 = true →
      ∀ (cs' : List (Call κ σ)) (m' : Pending κ σ),
        (∀ c ∈ cs', Call.releases k c = false) →
        run (do_must_refresh a m k s).2 cs' = some m' →
        (∀ k', Pending.entries m' k' ≤ 1) ∧ Pending.find m' k = some s ∧
        ∀ (a' : Bool) (t : σ), do_must_refresh a' m' k t = (false, m') := by
  have hwf : Pending.WF m := WF_run cs (by simp [Pending.WF]) hreach
  have hent : ∀ (x : Pending κ σ), Pending.WF x → ∀ k, Pending.entries x k ≤ 1 := by
    intro x hx k
    rw [Pending.entries_eq_count]
    exact List.nodup_iff_count_le_one.1 hx k
  refine ⟨hent m hwf, ?_⟩
  intro a k s hown cs' m' hbetween hrun
  have h1 : Pending.find (do_must_refresh a m k s).2 k = some s := by
    rw [do_must_refresh_eq] at hown ⊢
    by_cases hc : Pending.find m k = none ∧ a = true
    · simp [hc, Pending.find]
    · simp [hc] at hown
  have h2 := find_run_keep cs' h1 hbetween hrun
  refine ⟨hent m' (WF_run cs' (WF_do_must_refresh hwf a k s) hrun), h2, ?_⟩
  intro a' t
  rw [do_must_refresh_eq]
  simp [h2]

/-- C3. After `do_must_refresh(k, owner)` returned true and `do_refreshed(k, owner)` was
called, `do_must_refresh(k, other)` returns true when its insertion does not fail. Calls for
other keys may come before and after the `do_refreshed`; no other call for `k` does. The
`do_refreshed` returns in a debug and in a release build. -/
theorem must_refresh_after_refreshed (a debug : Bool) (m m2 m4 : Pending κ σ) (k : κ)
    (owner other : σ) (cs1 cs2 : List (Call κ σ))
    (hown : (do_must_refresh a m k owner).1 = true)
    (hc1 : ∀ c ∈ cs1, Call.key c ≠ k)
    (hr1 : run (do_must_refresh a m k owner).2 cs1 = some m2)
    (hc2 : ∀ c ∈ cs2, Call.key c ≠ k)
    (hr2 : run (Pending.erase m2 k) cs2 = some m4) :
    do_refreshed debug m2 k owner = Refreshed.returned (Pending.erase m2 k) ∧
    do_must_refresh true m4 k other = (true, (k, other) :: m4) := by
  have hcond : Pending.find m k = none ∧ a = true := by
    rw [do_must_refresh_eq] at hown
    by_cases hc : Pending.find m k = none ∧ a = true
    · exact hc
    · simp [hc] at hown
  have hm1 : (do_must_refresh a m k owner).2 = (k, owner) :: m := by
    rw [do_must_refresh_eq]; simp [hcond]
  have hrel : ∀ c ∈ cs1, Call.releases k c = false := by
    intro c hc
    have := hc1 c hc
    cases c with
    | must_refresh _ _ _ => rfl
    | refreshed key t => simpa [Call.releases, Call.key] using this
  have hf1 : Pending.find (do_must_refresh a m k owner).2 k = some owner := by
    rw [hm1]; simp [Pending.find]
  have hf2 : Pending.find m2 k = some owner := find_run_keep cs1 hf1 hrel hr1
  have he1 : Pending.entries (do_must_refresh a m k owner).2 k = 1 := by
    rw [hm1]
    have h0 := (entries_eq_zero_iff m k).2 hcond.1
    unfold Pending.entries at h0 ⊢
    simp [List.filter_cons, h0]
  have he2 : Pending.entries m2 k = 1 := by
    rw [entries_run_other cs1 hc1 hr1]; exact he1
  have hf3 : Pending.find (Pending.erase m2 k) k = none :=
    find_erase_self_of_le_one (by omega)
  have hf4 : Pending.find m4 k = none := by
    rw [← entries_eq_zero_iff, entries_run_other cs2 hc2 hr2, entries_eq_zero_iff]
    exact hf3
  refine ⟨?_, ?_⟩
  · simp [do_refreshed, hf2]
  · rw [do_must_refresh_eq]; simp [hf4]

/-- C4. When `k` is owned by `requester`, `do_refreshed(k, requester)` passes both
assertions (it returns, in a debug and in a release build), `k` has no entry afterwards, and
the entry of every other key is as it was: the registry is the old one without the entry of
`k`. -/
theorem do_refreshed_frame (debug : Bool) (m : Pending κ σ) (k : κ) (requester : σ)
    (hwf : Pending.WF m) (hown : Pending.find m k = some requester) :
    do_refreshed debug m k requester = Refreshed.returned (Pending.erase m k) ∧
    Pending.find (Pending.erase m k) k = none ∧
    (∀ k', k' ≠ k → Pending.find (Pending.erase m k) k' = Pending.find m k') ∧
    Pending.erase m k = m.filter (fun e => decide (e.1 ≠ k)) := by
  refine ⟨?_, Pending.find_erase_self hwf k, fun k' hk => Pending.find_erase_ne m hk,
    Pending.erase_eq_filter hwf k⟩
  simp [do_refreshed, hown]

/-- C5, as the code has it. When `k` is owned by `y` and `x` is another session,
`do_refreshed(k, x)` fails the ownership assertion in a debug build and the registry is not
changed; in a release build the call returns and has removed the entry of `k`, so `k` has no
owner afterwards, while the entry of every other key is as it was. -/
theorem do_refreshed_by_other (m : Pending κ σ) (k : κ) (x y : σ)
    (hwf : Pending.WF m) (hown : Pending.find m k = some y) (hne : y ≠ x) :
    do_refreshed true m k x = Refreshed.assert_owner_failed ∧
    do_refreshed false m k x = Refreshed.returned (Pending.erase m k) ∧
    Pending.find (Pending.erase m k) k = none ∧
    (∀ k', k' ≠ k → Pending.find (Pending.erase m k) k' = Pending.find m k') := by
  refine ⟨?_, ?_, Pending.find_erase_self hwf k, fun k' hk => Pending.find_erase_ne m hk⟩
  · simp [do_refreshed, hown, hne]
  · simp [do_refreshed, hown]

/-- C2 at an instance: sessions 7 and 8 take keys 1 and 2, 7 releases key 1, session 9 takes
it; while 9 holds it, session 10 is refused key 1, also after key 2 was released. -/
theorem single_owner_invariant_witness :
    (∀ k, Pending.entries ([(2, 8)] : Pending Nat Nat) k ≤ 1) ∧
    (∀ k', Pending.entries ([(1, 9)] : Pending Nat Nat) k' ≤ 1) ∧
    Pending.find ([(1, 9)] : Pending Nat Nat) 1 = some 9 ∧
    ∀ (a' : Bool) (t : Nat),
      do_must_refresh a' ([(1, 9)] : Pending Nat Nat) 1 t = (false, [(1, 9)]) :=
  have h := single_owner_invariant
    [Call.must_refresh true 1 7, Call.must_refresh true 2 8, Call.refreshed 1 7]
    ([(2, 8)] : Pending Nat Nat) (by decide)
  ⟨h.1, h.2 true 1 9 (by decide)
    [Call.must_refresh true 1 10, Call.refreshed 2 8] [(1, 9)] (by decide) (by decide)⟩

/-- C3 at an instance: session 7 takes key 1 while key 2 is held by 5; key 3 is taken and
key 2 released; 7 releases key 1; key 4 is taken; then session 8 gets key 1. -/
theorem must_refresh_after_refreshed_witness :
    (do_must_refresh true ([(2, 5)] : Pending Nat Nat) 1 7).1 = true ∧
    do_refreshed true ([(3, 9), (1, 7)] : Pending Nat Nat) 1 7 =
      Refreshed.returned (Pending.erase [(3, 9), (1, 7)] 1) ∧
    do_must_refresh true ([(4, 6), (3, 9)] : Pending Nat Nat) 1 8 =
      (true, [(1, 8), (4, 6), (3, 9)]) :=
  ⟨by decide,
   must_refresh_after_refreshed true true ([(2, 5)] : Pending Nat Nat) [(3, 9), (1, 7)]
    [(4, 6), (3, 9)] 1 7 8 [Call.must_refresh true 3 9, Call.refreshed 2 5]
    [Call.must_refresh true 4 6] (by decide) (by decide) (by decide) (by decide) (by decide)⟩

/-- C4 at an instance: key 1 is released by its owner 7, the entry of key 2 stays. -/
theorem do_refreshed_frame_witness :
    Pending.WF ([(2, 5), (1, 7)] : Pending Nat Nat) ∧
    Pending.find ([(2, 5), (1, 7)] : Pending Nat Nat) 1 = some 7 ∧
    do_refreshed true ([(2, 5), (1, 7)] : Pending Nat Nat) 1 7 =
      Refreshed.returned (Pending.erase [(2, 5), (1, 7)] 1) ∧
    Pending.find (Pending.erase ([(2, 5), (1, 7)] : Pending Nat Nat) 1) 1 = none :=
  have h := do_refreshed_frame true ([(2, 5), (1, 7)] : Pending Nat Nat) 1 7
    (by decide) (by decide)
  ⟨by decide, by decide, h.1, h.2.1⟩

/-- C5 as stated fails: in a release build, `do_refreshed(1, 8)` on the registry in which
key 1 is owned by session 7 is not ignored. The registry is empty afterwards, and key 1 is
no longer owned by 7. -/
theorem release_build_erases_foreign_entry :
    do_refreshed false ([(1, 7)] : Pending Nat Nat) 1 8 = Refreshed.returned [] ∧
    do_refreshed false ([(1, 7)] : Pending Nat Nat) 1 8 ≠ Refreshed.returned [(1, 7)] ∧
    Pending.find ([] : Pending Nat Nat) 1 ≠ some 7 := by
  decide

/-- C5 as the code has it, at an instance: key 1 is owned by 7 and session 8 reports it
refreshed. -/
theorem do_refreshed_by_other_witness :
    Pending.WF ([(2, 5), (1, 7)] : Pending Nat Nat) ∧
    do_refreshed true ([(2, 5), (1, 7)] : Pending Nat Nat) 1 8 =
      Refreshed.assert_owner_failed ∧
    do_refreshed false ([(2, 5), (1, 7)] : Pending Nat Nat) 1 8 =
      Refreshed.returned (Pending.erase [(2, 5), (1, 7)] 1) :=
  have h := do_refreshed_by_other ([(2, 5), (1, 7)] : Pending Nat Nat) 1 8 7
    (by decide) (by decide) (by decide)
  ⟨by decide, h.1, h.2.1⟩

end RegistryClaims

end CacheSimple

/-! ## Values, construction and diagnostics -/

namespace CacheSimple

section InstanceClaims

variable {κ σ V J S B C R F : Type}

/-- C7. `CacheSimple::get_value`, `put_value` and `del_value` return what the owned storage
returns for the same arguments, whatever result that is (`get_value` also the same value);
the pending registry is the same after each call, and the results do not depend on it. -/
theorem storage_pass_through (st : Storage κ V J S) (c : Instance κ σ S B) (key : κ)
    (flags soft_ttl hard_ttl : Nat) (ppValue pValue : Option V) :
    ((get_value st c key flags soft_ttl hard_ttl ppValue).1 =
        (st.get_value c.m_pStorage key flags soft_ttl hard_ttl ppValue).1 ∧
      (get_value st c key flags soft_ttl hard_ttl ppValue).2.1 =
        (st.get_value c.m_pStorage key flags soft_ttl hard_ttl ppValue).2.1 ∧
      (put_value st c key pValue).1 = (st.put_value c.m_pStorage key pValue).1 ∧
      (del_value st c key).1 = (st.del_value c.m_pStorage key).1) ∧
    ((get_value st c key flags soft_ttl hard_ttl ppValue).2.2.m_pending = c.m_pending ∧
      (put_value st c key pValue).2.m_pending = c.m_pending ∧
      (del_value st c key).2.m_pending = c.m_pending) ∧
    ∀ p : Pending κ σ,
      (get_value st { c with m_pending := p } key flags soft_ttl hard_ttl ppValue).1 =
        (get_value st c key flags soft_ttl hard_ttl ppValue).1 ∧
      (get_value st { c with m_pending := p } key flags soft_ttl hard_ttl ppValue).2.1 =
        (get_value st c key flags soft_ttl hard_ttl ppValue).2.1 ∧
      (put_value st { c with m_pending := p } key pValue).1 = (put_value st c key pValue).1 ∧
      (del_value st { c with m_pending := p } key).1 = (del_value st c key).1 :=
  ⟨⟨rfl, rfl, rfl, rfl⟩, ⟨rfl, rfl, rfl⟩, fun _ => ⟨rfl, rfl, rfl, rfl⟩⟩

/-- C8. `CacheSimple::Create` returns what `Cache::Create` returns, called with an empty
rule vector and a null factory. When that is false, `*pRules` and `*ppFactory` are as they
were passed in; when it is true, they hold the rules and the factory that `Cache::Create`
produced. -/
theorem Create_all_or_nothing
    (Cache_Create : C → List R → Option F → Bool × List R × Option F)
    (config : C) (pRules : List R) (ppFactory : Option F) :
    (Create Cache_Create config pRules ppFactory).1 = (Cache_Create config [] none).1 ∧
    Create Cache_Create config pRules ppFactory =
      if (Cache_Create config [] none).1 = true then
        (true, (Cache_Create config [] none).2.1, (Cache_Create config [] none).2.2)
      else (false, pRules, ppFactory) := by
  unfold Create
  cases h : (Cache_Create config [] none).1 <;> simp [h]

/-- C9, what the code does. The report of `do_get_info` is the base report, with the
member "storage" set when the STORAGE bit is set and the backend's result is OK. It is the
same whatever the pending registry holds, so with only the PENDING bit (0x02) set it is the
base report and the size of the registry is not in it. -/
theorem do_get_info_omits_pending (Cache_do_get_info : B → Nat → Report J)
    (CACHE_RESULT_IS_OK : cache_result_t → Bool) (st : Storage κ V J S)
    (c : Instance κ σ S B) (what : Nat) (p : Pending κ σ) :
    do_get_info Cache_do_get_info CACHE_RESULT_IS_OK st { c with m_pending := p } what =
      do_get_info Cache_do_get_info CACHE_RESULT_IS_OK st c what ∧
    do_get_info Cache_do_get_info CACHE_RESULT_IS_OK st c 0x02 =
      Cache_do_get_info c.cache 0x02 ∧
    do_get_info Cache_do_get_info CACHE_RESULT_IS_OK st c what =
      (if what &&& INFO_STORAGE ≠ 0 ∧
          CACHE_RESULT_IS_OK (st.get_info c.m_pStorage st.INFO_ALL).1 = true then
        json_object_set_new (Cache_do_get_info c.cache what) "storage"
          (st.get_info c.m_pStorage st.INFO_ALL).2
      else Cache_do_get_info c.cache what) ∧
    INFO_ALL = 0x07 := by
  refine ⟨rfl, ?_, ?_, by decide⟩
  · have h : (0x02 : Nat) &&& INFO_STORAGE = 0 := by decide
    simp [do_get_info, h]
  · unfold do_get_info
    by_cases h1 : what &&& INFO_STORAGE ≠ 0
    · by_cases h2 : CACHE_RESULT_IS_OK (st.get_info c.m_pStorage st.INFO_ALL).1 = true
      · simp [h1, h2]
      · simp [h1, h2]
    · simp [h1]

end InstanceClaims

end CacheSimple

/-! ## maxkeys -/

namespace Maxkeys

theorem main_of_parsed (env : Env) (new_key : EncryptionKeys) (opts : List (Int × String))
    (arg : Option String) (username : String)
    (hparse : parse_options opts default_user = Sum.inr username) :
    main env new_key opts arg = main_generate env new_key username arg := by
  simp [main, hparse]

/-- C10. For a run of `main` that gets past the option loop: when `access` succeeds on the
target file, or fails with an `errno` other than `ENOENT`, `main` returns `EXIT_FAILURE` and
the run has no call of `gen_random_key` or `write_keys` and no action on a file (it consists
of the `access` and a `printf`); `write_keys` is called only when `access` failed with
`ENOENT`, and `main` then returns `EXIT_SUCCESS` exactly when `write_keys` returns true. -/
theorem main_never_overwrites (env : Env) (new_key : EncryptionKeys)
    (opts : List (Int × String)) (arg : Option String) (username : String)
    (hparse : parse_options opts default_user = Sum.inr username) :
    (((env.access (secrets_filepath env arg)).1 = 0 ∨
        (env.access (secrets_filepath env arg)).2 ≠ ENOENT) →
      (main env new_key opts arg).1 = EXIT_FAILURE ∧
      ∀ a ∈ (main env new_key opts arg).2, Action.generates a = false) ∧
    ((∃ a ∈ (main env new_key opts arg).2, Action.generates a = true) →
      (env.access (secrets_filepath env arg)).1 ≠ 0 ∧
      (env.access (secrets_filepath env arg)).2 = ENOENT) ∧
    (((env.access (secrets_filepath env arg)).1 ≠ 0 ∧
        (env.access (secrets_filepath env arg)).2 = ENOENT) →
      Action.write_keys (secrets_filepath env arg) username ∈
        (main env new_key opts arg).2 ∧
      ((main env new_key opts arg).1 = EXIT_SUCCESS ↔
        (write_keys env new_key (secrets_filepath env arg) username).1 = true)) := by
  rw [main_of_parsed env new_key opts arg username hparse]
  unfold main_generate
  by_cases h1 : (env.access (secrets_filepath env arg)).1 = 0
  · simp [h1, Action.generates]
  · by_cases h2 : (env.access (secrets_filepath env arg)).2 = ENOENT
    · simp only [h1, h2, if_false, ne_eq, not_true_eq_false, or_self, false_implies,
        not_false_eq_true, and_self, implies_true, true_and, true_implies]
      refine ⟨by simp, ?_⟩
      cases hw : (write_keys env new_key (secrets_filepath env arg) username).1
      · simp [EXIT_SUCCESS, EXIT_FAILURE]
      · simp
    · simp [h1, h2, Action.generates]

/-- C10 at two instances, both started with `--user=root`: with the directory `/tmp`, where
the file exists, the run fails and does nothing but the check; with the default directory,
where it does not exist, `write_keys` is called and the run succeeds as `write_keys` does. -/
theorem main_never_overwrites_witness :
    parse_options [(117, "root")] default_user = Sum.inr "root" ∧
    ((main example_env example_key [(117, "root")] (some "/tmp")).1 = EXIT_FAILURE ∧
      ∀ a ∈ (main example_env example_key [(117, "root")] (some "/tmp")).2,
        Action.generates a = false) ∧
    (Action.write_keys (secrets_filepath example_env none) "root" ∈
        (main example_env example_key [(117, "root")] none).2 ∧
      ((main example_env example_key [(117, "root")] none).1 = EXIT_SUCCESS ↔
        (write_keys example_env example_key (secrets_filepath example_env none) "root").1
          = true)) :=
  ⟨by decide,
   (main_never_overwrites example_env example_key [(117, "root")] (some "/tmp") "root"
      (by decide)).1 (Or.inl (by decide)),
   (main_never_overwrites example_env example_key [(117, "root")] none "root"
      (by decide)).2.2 ⟨by decide, by decide⟩⟩

end Maxkeys

/-! ## maxkeys: the fallback fill of `gen_random_key` -/

namespace Maxkeys

theorem object_bytes_length (n : Nat) : (object_bytes n).length = 8 := by
  simp [object_bytes]

theorem object_bytes_take (engine : Nat → Nat) (k c : Nat) (hc : c ≤ 8) :
    (object_bytes (engine k)).take c =
      ((List.range c).map (fun j => 8 * k + j)).map (filled_byte engine) := by
  have h1 : (object_bytes (engine k)).take c =
      (List.range c).map (fun j => engine k / 256 ^ j % 256) := by
    unfold object_bytes
    rw [← List.map_take, List.take_range, Nat.min_eq_left hc]
  rw [h1, List.map_map]
  apply List.map_congr_left
  intro j hj
  have hj8 : j < 8 := by
    have := List.mem_range.1 hj
    omega
  have hd : (8 * k + j) / 8 = k := by omega
  have hm : (8 * k + j) % 8 = j := by omega
  simp only [Function.comp, filled_byte, hd, hm, object_bytes]
  simp [List.getD_eq_getElem?_getD, List.getElem?_range, hj8]

theorem fill_loop_exit (engine : Nat → Nat) (buflen : Int) (fuel : Nat) (st : Fill)
    (h : ¬ st.bytes_written < buflen) : fill_loop engine buflen fuel st = Except.ok st := by
  cases fuel with
  | zero => simp [fill_loop, h]
  | succ n => simp [fill_loop, h]

theorem memcpy_in_bounds (dest : List Nat) (offset : Int) (src : List Nat) (n : Int)
    (h : 0 ≤ offset ∧ 0 ≤ n ∧ offset + n ≤ dest.length ∧ n ≤ src.length) :
    memcpy dest offset src n =
      Except.ok (dest.take offset.toNat ++ src.take n.toNat ++
        dest.drop (offset.toNat + n.toNat)) := by
  simp only [memcpy, h, and_self, if_true]

theorem fill_step_buffer (engine : Nat → Nat) (buf : List Nat) (k c : Nat)
    (hc : c ≤ 8) (hle : 8 * k + c ≤ buf.length)
    (hbuf : buf.take (8 * k) = (List.range (8 * k)).map (filled_byte engine)) :
    (buf.take (8 * k) ++ (object_bytes (engine k)).take c ++ buf.drop (8 * k + c)).take
        (8 * k + c) = (List.range (8 * k + c)).map (filled_byte engine) := by
  have hl : (buf.take (8 * k) ++ (object_bytes (engine k)).take c).length = 8 * k + c := by
    simp only [List.length_append, List.length_take, object_bytes_length]
    omega
  rw [List.take_left' hl, hbuf, object_bytes_take engine k c hc, List.range_add,
    List.map_append]

theorem fill_loop_from (engine : Nat → Nat) (buflen : Int) (fuel : Nat) (st : Fill)
    (hlen : (st.rand_buffer.length : Int) = buflen)
    (hbw : st.bytes_written = min (8 * (st.calls : Int)) buflen)
    (hk : 8 * (st.calls : Int) < buflen + 8)
    (hcopies : st.copies = (List.range st.calls).map (piece buflen))
    (hbuf : st.rand_buffer.take st.bytes_written.toNat =
      (List.range st.bytes_written.toNat).map (filled_byte engine))
    (hfuel : pieces buflen ≤ fuel + st.calls) :
    fill_loop engine buflen fuel st =
      Except.ok ⟨(List.range buflen.toNat).map (filled_byte engine), buflen, pieces buflen,
        (List.range (pieces buflen)).map (piece buflen)⟩ := by
  induction fuel generalizing st with
  | zero =>
    obtain ⟨buf, bw, k, cps⟩ := st
    simp only at hlen hbw hk hcopies hbuf hfuel
    have hexit : ¬ bw < buflen := by
      unfold pieces at hfuel
      omega
    rw [fill_loop_exit engine buflen 0 _ hexit]
    have hbw' : bw = buflen := by omega
    have hk' : k = pieces buflen := by
      unfold pieces
      omega
    have hL : buflen.toNat = buf.length := by omega
    subst hbw'
    rw [hL, List.take_length] at hbuf
    rw [hcopies, hbuf, hL, hk']
  | succ fuel ih =>
    obtain ⟨buf, bw, k, cps⟩ := st
    simp only at hlen hbw hk hcopies hbuf hfuel
    by_cases hcond : bw < buflen
    · have hbwk : bw = 8 * (k : Int) := by omega
      subst hbwk
      have hin : 0 ≤ 8 * (k : Int) ∧ 0 ≤ min (8 : Int) (buflen - 8 * (k : Int)) ∧
          8 * (k : Int) + min (8 : Int) (buflen - 8 * (k : Int)) ≤ (buf.length : Int) ∧
          min (8 : Int) (buflen - 8 * (k : Int)) ≤ ((object_bytes (engine k)).length : Int) := by
        rw [object_bytes_length]
        omega
      have ho : (8 * (k : Int)).toNat = 8 * k := by omega
      have hcn : (min (8 : Int) (buflen - 8 * (k : Int))).toNat = min 8 (buf.length - 8 * k) := by
        omega
      have hsum : (8 * (k : Int) + min (8 : Int) (buflen - 8 * (k : Int))).toNat =
          8 * k + min 8 (buf.length - 8 * k) := by omega
      simp only [fill_loop, hcond, if_true, memcpy_in_bounds _ _ _ _ hin]
      rw [ho] at hbuf
      apply ih
      · simp only [ho, hcn, List.length_append, List.length_take, List.length_drop,
          object_bytes_length]
        omega
      · simp only
        omega
      · simp only
        omega
      · simp only
        rw [List.range_succ, List.map_append, hcopies]
        simp [piece]
      · simp only [ho, hcn, hsum]
        exact fill_step_buffer engine buf k _ (by omega) (by omega) hbuf
      · simp only
        omega
    · rw [fill_loop_exit engine buflen _ _ hcond]
      have hbw' : bw = buflen := by omega
      have hk' : k = pieces buflen := by
        unfold pieces
        omega
      have hL : buflen.toNat = buf.length := by omega
      subst hbw'
      rw [hL, List.take_length] at hbuf
      rw [hcopies, hbuf, hL, hk']

theorem piece_of_lt (buflen : Int) (j : Nat) (hj : j < pieces buflen) :
    8 * (j : Int) < buflen := by
  unfold pieces at hj
  omega

theorem covered_once (buflen i : Int) (h0 : 0 ≤ i) (hi : i < buflen) :
    (((List.range (pieces buflen)).map (piece buflen)).filter (covers i)).length = 1 := by
  have hmem : i.toNat / 8 ∈ List.range (pieces buflen) := by
    rw [List.mem_range]
    unfold pieces
    omega
  have hcongr : (List.range (pieces buflen)).filter (covers i ∘ piece buflen) =
      (List.range (pieces buflen)).filter (fun j => j == i.toNat / 8) := by
    apply List.filter_congr
    intro j hj
    have hlt := piece_of_lt buflen j (List.mem_range.1 hj)
    by_cases hje : j = i.toNat / 8
    · have : 8 * (j : Int) ≤ i ∧ i < 8 * (j : Int) + min 8 (buflen - 8 * (j : Int)) := by
        omega
      have hc : covers i (piece buflen j) = true := decide_eq_true this
      have hb : (j == i.toNat / 8) = true := beq_iff_eq.2 hje
      simp only [Function.comp, hc, hb]
    · have : ¬ (8 * (j : Int) ≤ i ∧ i < 8 * (j : Int) + min 8 (buflen - 8 * (j : Int))) := by
        omega
      have hc : covers i (piece buflen j) = false := decide_eq_false this
      have hb : (j == i.toNat / 8) = false := beq_eq_false_iff_ne.2 hje
      simp only [Function.comp, hc, hb]
  rw [List.filter_map, List.length_map, hcongr, List.filter_beq,
    List.count_eq_one_of_mem (List.nodup_range _) hmem]
  rfl

/-- C11. When the array `rand_buffer` has `buflen` elements (so `buflen >= 0`) and the loop is
given as many iterations as there are pieces of 8 bytes in `buflen`, the fallback loop ends,
with `bytes_written = buflen` (48 for a buffer of 48). Copy `j` is made at offset `8 * j`,
the value of `bytes_written` then, with `min(8, buflen - bytes_written)` bytes, at least one,
and it ends inside the array; every index of the array is written by exactly one copy, and
byte `i` of the array is then byte `i % 8` of random number `i / 8`. When `RAND_bytes` failed
and `key_len` and `iv_len` bytes fit in the array, `gen_random_key` returns the first
`key_len` bytes of this array as the key and the next `iv_len` bytes as the init vector. -/
theorem gen_random_key_fallback (engine : Nat → Nat) (buflen : Int) (fuel : Nat)
    (rand_buffer : List Nat)
    (hlen : (rand_buffer.length : Int) = buflen) (hfuel : pieces buflen ≤ fuel) :
    ∃ st : Fill,
      fill_loop engine buflen fuel ⟨rand_buffer, 0, 0, []⟩ = Except.ok st ∧
      st.bytes_written = buflen ∧
      (buflen = 48 → st.bytes_written = 48 ∧ st.calls = 6) ∧
      st.rand_buffer.length = rand_buffer.length ∧
      st.copies = (List.range (pieces buflen)).map (piece buflen) ∧
      (∀ c ∈ st.copies, 0 ≤ c.1 ∧ 1 ≤ c.2 ∧ c.2 = min 8 (buflen - c.1) ∧
        c.1 + c.2 ≤ buflen) ∧
      (∀ i : Int, 0 ≤ i → i < buflen → (st.copies.filter (covers i)).length = 1) ∧
      (∀ i : Nat, i < rand_buffer.length →
        st.rand_buffer.getD i 0 = filled_byte engine i) ∧
      ∀ (key_len iv_len RAND_bytes_rv : Int), RAND_bytes_rv < 1 →
        0 ≤ key_len → 0 ≤ iv_len → key_len + iv_len ≤ buflen →
        gen_random_key key_len iv_len buflen RAND_bytes_rv engine fuel rand_buffer =
          Except.ok ⟨st.rand_buffer.take key_len.toNat,
            (st.rand_buffer.drop key_len.toNat).take iv_len.toNat⟩ := by
  have hrun := fill_loop_from engine buflen fuel ⟨rand_buffer, 0, 0, []⟩ hlen
    (by simp only [Nat.cast_zero]; omega) (by simp only [Nat.cast_zero]; omega)
    (by simp) (by simp) (by simpa using hfuel)
  have hL : buflen.toNat = rand_buffer.length := by omega
  refine ⟨_, hrun, rfl, ?_, ?_, rfl, ?_, ?_, ?_, ?_⟩
  · intro h48
    subst h48
    exact ⟨rfl, by show pieces 48 = 6; decide⟩
  · simp [hL]
  · intro c hc
    obtain ⟨j, hj, rfl⟩ := List.mem_map.1 hc
    have hlt := piece_of_lt buflen j (List.mem_range.1 hj)
    show 0 ≤ 8 * (j : Int) ∧ 1 ≤ min 8 (buflen - 8 * (j : Int)) ∧
      min 8 (buflen - 8 * (j : Int)) = min 8 (buflen - 8 * (j : Int)) ∧
      8 * (j : Int) + min 8 (buflen - 8 * (j : Int)) ≤ buflen
    exact ⟨by omega, by omega, rfl, by omega⟩
  · intro i h0 hi
    exact covered_once buflen i h0 hi
  · intro i hi
    simp [hL, List.getD_eq_getElem?_getD, List.getElem?_range, hi]
  · intro key_len iv_len rv hfail hkey hiv htotal
    have h1 : 0 ≤ (0 : Int) ∧ 0 ≤ key_len ∧ 0 + key_len ≤
        (((List.range buflen.toNat).map (filled_byte engine)).length : Int) := by
      simp only [List.length_map, List.length_range]
      omega
    have h2 : 0 ≤ key_len ∧ 0 ≤ iv_len ∧ key_len + iv_len ≤
        (((List.range buflen.toNat).map (filled_byte engine)).length : Int) := by
      simp only [List.length_map, List.length_range]
      omega
    simp only [gen_random_key, hfail, if_true, hrun, mem_read, h1, h2, and_self,
      Int.toNat_zero, List.drop_zero]

/-- C11 at an instance: the buffer of 48 zero bytes, six iterations, the engine that returns
1, 2, 3, ...; a key of 32 and an init vector of 16 bytes. -/
theorem gen_random_key_fallback_witness :
    ((List.replicate 48 0).length : Int) = 48 ∧ pieces 48 ≤ 6 ∧
    ∃ st : Fill,
      fill_loop (fun i => i + 1) 48 6 ⟨List.replicate 48 0, 0, 0, []⟩ = Except.ok st ∧
      st.bytes_written = 48 ∧
      st.copies = (List.range (pieces 48)).map (piece 48) ∧
      gen_random_key 32 16 48 0 (fun i => i + 1) 6 (List.replicate 48 0) =
        Except.ok ⟨st.rand_buffer.take 32, (st.rand_buffer.drop 32).take 16⟩ :=
  ⟨by decide, by decide,
   match gen_random_key_fallback (fun i => i + 1) 48 6 (List.replicate 48 0)
      (by decide) (by decide) with
   | ⟨st, h1, h2, _, _, h5, _, _, _, h9⟩ =>
     ⟨st, h1, h2, h5, h9 32 16 0 (by decide) (by decide) (by decide) (by decide)⟩⟩

end Maxkeys
